import Mathlib

/-!
Verification of the brokex-proof-fetcher tick scheduler / eligibility /
batching engine against its natural-language specification.

The repository consists of three near-duplicate top-level scripts:
`src/index.js` (explicit asset table, inline fetch pipeline, plain
`setInterval` re-arm) and two unnamed variants (`src/unnamed/part_001`,
`src/unnamed/part_002`) that use pure range-based catalogs; `part_001`
additionally has a named `fetchProof` helper, a `Number.isFinite` filter in
`expandRanges`, and a jittered self-rescheduling loop.  Definitions below are
shallow embeddings of those source functions; the suffix `V2` marks the
`part_001` variant where it differs from `src/index.js`.
-/

namespace Brokex

/-! ## Categories (the `cat` strings of the source) -/

/-- The category tags used by the source: `"crypto"`, `"fxcom"`, `"equity"`,
`"index"`, plus `unknown` for identifiers outside every rule (the spec calls
`fxcom` "fx_or_commodity"). -/
inductive Cat where
  | crypto | fxcom | equity | index | unknown
deriving DecidableEq, Repr

/-! ## Calendar policy (`isAllowedNowByCategory`, src/index.js lines 110-133)

The source converts the input instant to the America/New_York civil calendar
via luxon (`nowUTC.setZone("America/New_York")`) and then only reads
`nowNY.weekday` (1 = Monday .. 7 = Sunday) and `nowNY.hour * 60 + nowNY.minute`.
The timezone conversion is performed by the external library; the embedding therefore
takes the NY-local weekday and minutes-since-midnight as inputs and embeds
the `switch` over the category. -/

/-- Embeds `isAllowedNowByCategory` from src/index.js (identical in part_001/002):
`crypto` is always allowed; `fxcom` and `index` on weekdays 1..5; `equity`
on weekdays 1..5 with `minutes >= 9*60+30 && minutes <= 16*60+30`; the
`default` branch returns false. -/
def isAllowedNowByCategory (cat : Cat) (weekday : ℕ) (minutes : ℕ) : Bool :=
  match cat with
  | .crypto => true
  | .fxcom | .index => decide (1 ≤ weekday ∧ weekday ≤ 5)
  | .equity =>
    if ¬(1 ≤ weekday ∧ weekday ≤ 5) then false
    else decide (9 * 60 + 30 ≤ minutes ∧ minutes ≤ 16 * 60 + 30)
  | .unknown => false

/-- Calendar-policy rules as the spec words them
(§4.1 / claim C2): crypto always; fx_or_commodity and index on NY weekdays
Monday-Friday; equity on those weekdays with NY minutes-since-midnight in
[570, 990]; unknown never. -/
def calendarSpec (cat : Cat) (weekday : ℕ) (minutes : ℕ) : Prop :=
  match cat with
  | .crypto => True
  | .fxcom | .index => 1 ≤ weekday ∧ weekday ≤ 5
  | .equity => (1 ≤ weekday ∧ weekday ≤ 5) ∧ (570 ≤ minutes ∧ minutes ≤ 990)
  | .unknown => False

instance (cat : Cat) (weekday minutes : ℕ) :
    Decidable (calendarSpec cat weekday minutes) := by
  unfold calendarSpec
  cases cat <;> infer_instance

/-! ## Identifier catalog (src/index.js lines 22-107) -/

/-- One entry of the `ASSETS` map: the numeric `id` and the `cat` tag.
The display names carried alongside in the source do not affect
`getCategory` and are omitted. -/
structure Asset where
  id : ℕ
  cat : Cat
deriving DecidableEq, Repr

/-- Embeds `Object.values(ASSETS)` from src/index.js, in source (insertion) order. -/
def ASSETS : List Asset :=
  [⟨6004, .equity⟩, ⟨6005, .equity⟩, ⟨6010, .equity⟩, ⟨6003, .equity⟩,
   ⟨6011, .equity⟩, ⟨6009, .equity⟩, ⟨6059, .equity⟩, ⟨6068, .equity⟩,
   ⟨6001, .equity⟩, ⟨6066, .equity⟩, ⟨6006, .equity⟩, ⟨6002, .equity⟩,
   ⟨6000, .equity⟩,
   ⟨5010, .fxcom⟩, ⟨5000, .fxcom⟩, ⟨5002, .fxcom⟩, ⟨5013, .fxcom⟩,
   ⟨5011, .fxcom⟩, ⟨5012, .fxcom⟩, ⟨5001, .fxcom⟩,
   ⟨5501, .fxcom⟩, ⟨5500, .fxcom⟩, ⟨5503, .fxcom⟩,
   ⟨0, .crypto⟩, ⟨1, .crypto⟩, ⟨10, .crypto⟩, ⟨14, .crypto⟩, ⟨5, .crypto⟩,
   ⟨3, .crypto⟩, ⟨15, .crypto⟩, ⟨16, .crypto⟩, ⟨90, .crypto⟩, ⟨2, .crypto⟩,
   ⟨6038, .equity⟩,
   ⟨6034, .equity⟩, ⟨6113, .index⟩, ⟨6114, .index⟩, ⟨6115, .index⟩]

/-- Embeds `inferCategoryById` from src/index.js: `0 <= id && id <= 1000` gives
crypto; `(5000 <= id && id <= 5600) || (5500 <= id && id <= 5599)` gives
fxcom; `id >= 6000` gives equity (fallback); otherwise unknown.  (`id` is a
non-negative integer, so the `0 <= id` conjunct is kept as `0 ≤ id` on ℕ.) -/
def inferCategoryById (id : ℕ) : Cat :=
  if 0 ≤ id ∧ id ≤ 1000 then .crypto
  else if (5000 ≤ id ∧ id ≤ 5600) ∨ (5500 ≤ id ∧ id ≤ 5599) then .fxcom
  else if 6000 ≤ id then .equity
  else .unknown

/-- Embeds `getCategory` from src/index.js: first match in `Object.values(ASSETS)`
(`.find(a => a.id === id)`), else range inference. -/
def getCategory (id : ℕ) : Cat :=
  match ASSETS.find? (fun a => a.id = id) with
  | some a => a.cat
  | none => inferCategoryById id

/-- Range-inference rule as the spec words it (§4.2 / claim C5):
crypto on [0,1000], fx_or_commodity on [5000,5600], equity for id ≥ 6000,
unknown otherwise. -/
def inferSpec (id : ℕ) : Cat :=
  if id ≤ 1000 then .crypto
  else if 5000 ≤ id ∧ id ≤ 5600 then .fxcom
  else if 6000 ≤ id then .equity
  else .unknown

/-! ## expandRanges (src/index.js lines 73-86; part_001 lines 40-53)

Strings are modelled as their character lists so that every operation is a
structurally recursive function the kernel can evaluate.  A JavaScript
number that can arise here is either an integer or `NaN`; it is modelled as
`Option ℤ` with `none` playing `NaN` (every token reaching `Number()` in
this code is `Number`-parsed as an optionally signed decimal integer, `""`
or whitespace giving `0`, anything else giving `NaN`). -/

/-- Embeds `String.prototype.split(sep)` for a one-character separator, on the
character list.  `[] ↦ [[]]`, matching JS `"".split(",") === [""]`. -/
def splitOnChar (c : Char) : List Char → List (List Char)
  | [] => [[]]
  | a :: rest =>
    let r := splitOnChar c rest
    if a = c then [] :: r
    else
      match r with
      | [] => [[a]]
      | g :: gs => (a :: g) :: gs

/-- JS whitespace test for the characters occurring here (space, tab, LF, CR). -/
def isJsSpace (c : Char) : Bool :=
  c = ' ' ∨ c = '\t' ∨ c = '\n' ∨ c = '\r'

/-- Embeds `String.prototype.trim()` on the character list. -/
def trimChars (l : List Char) : List Char :=
  ((l.dropWhile isJsSpace).reverse.dropWhile isJsSpace).reverse

/-- Decimal digit run to a natural number: `some n` iff the list is a
non-empty string of digits. -/
def digitsToNat : List Char → Option ℕ
  | [] => none
  | l => l.foldl
      (fun acc c => match acc with
        | none => none
        | some n => if c.isDigit then some (n * 10 + (c.toNat - '0'.toNat)) else none)
      (some 0)

/-- Embeds `Number(token)` on the strings this program feeds it: after trimming,
the empty string is `0`, an optionally `-`-signed digit run is that
integer, anything else is `NaN` (`none`). -/
def jsNumber (l : List Char) : Option ℤ :=
  match trimChars l with
  | [] => some 0
  | '-' :: rest => (digitsToNat rest).map (fun n => -(n : ℤ))
  | t => (digitsToNat t).map (fun n => (n : ℤ))

/-- The inclusive integer range `min a b .. max a b`; with a `NaN` bound the
source loop `for (let i = start; i <= end; i++)` never iterates (comparisons
with `NaN` are false), contributing nothing. -/
def rangeVals : Option ℤ → Option ℤ → List ℤ
  | some a, some b =>
    (List.range (max a b - min a b + 1).toNat).map (fun k => min a b + k)
  | _, _ => []

/-- The values one trimmed non-empty token adds to the `Set`: a token
containing `-` takes the first two `split("-")` parts as range bounds
(`const [a,b] = token.split("-").map(Number)`); any other token contributes
`Number(token)` itself — which is `NaN` when non-numeric. -/
def tokenVals (t : List Char) : List (Option ℤ) :=
  if t.contains '-' then
    let parts := splitOnChar '-' t
    (rangeVals (jsNumber (parts.getD 0 [])) (jsNumber (parts.getD 1 []))).map some
  else [jsNumber t]

/-- Embeds JS `Set` insertion: `Set.add` keeps insertion order and deduplicates
with SameValueZero, under which `NaN` equals `NaN`. -/
def setInsert (l : List (Option ℤ)) (v : Option ℤ) : List (Option ℤ) :=
  if v ∈ l then l else l ++ [v]

/-- The tokens of the spec string: `spec.split(",").map(s => s.trim()).filter(Boolean)`. -/
def specTokens (s : List Char) : List (List Char) :=
  ((splitOnChar ',' s).map trimChars).filter (fun t => ¬t.isEmpty)

/-- Insertion-ordered deduplicated contents of the `Set` built by
the `forEach` of `expandRanges`. -/
def expandSet (s : List Char) : List (Option ℤ) :=
  ((specTokens s).flatMap tokenVals).foldl setInsert []

/-- The `(x,y) => x - y` comparator as a Bool relation; a comparison
involving `NaN` yields `NaN`, which `Array.prototype.sort` treats as 0
("equal"), so `none` compares as equal to everything.  (With a `NaN`
present the comparator is inconsistent and the JS result is
implementation-defined; theorems about `NaN`-polluted outputs are stated
only where the order is forced.) -/
def numLe : Option ℤ → Option ℤ → Bool
  | some x, some y => x ≤ y
  | _, _ => true

/-- Embeds `expandRanges` from src/index.js: split, trim, drop empties, expand each
token into the `Set`, then `Array.from(out).sort((x,y)=>x-y)`.  Non-numeric
single tokens leave a `NaN` (`none`) entry in the result — src/index.js has
no `Number.isFinite` filter. -/
def expandRanges (s : List Char) : List (Option ℤ) :=
  if s.isEmpty then []
  else List.insertionSort (fun a b => numLe a b) (expandSet s)

/-- Embeds `expandRanges` from part_001 (= part_002): identical except for the
final `.filter(Number.isFinite)`, which removes every `NaN` before sorting;
the result is a plain integer list. -/
def expandRangesV2 (s : List Char) : List ℤ :=
  if s.isEmpty then []
  else List.insertionSort (· ≤ ·) ((expandSet s).filterMap id)

/-! ## chunk (src/index.js lines 88-92) -/

/-- Embeds `chunk(arr, size)`: the loop `for (i = 0; i < arr.length; i += size)
res.push(arr.slice(i, i + size))`.  For `size ≥ 1` each step takes
`arr.slice(i, i+size)` = `take size` and recurses on `drop size`; the
source diverges for `size = 0` (the spec makes `maxSize ≥ 1` a caller
contract), where this embedding instead steps by one. -/
def chunkGo (size : ℕ) : ℕ → List α → List (List α)
  | _, [] => []
  | 0, _ :: _ => []
  | fuel + 1, a :: l => (a :: l.take (size - 1)) :: chunkGo size fuel (l.drop (size - 1))

def chunk (arr : List α) (size : ℕ) : List (List α) :=
  chunkGo size arr.length arr

/-! ## Tick scheduler state machine (src/index.js lines 150-199)

`tick` is an async function on a single JS event loop.  A scheduling event
(`setInterval` firing, or the startup call) invokes `tick()`: the guard
`if (busy) return;` makes it return immediately when a previous tick is
still running, otherwise `busy = true` and the body starts.  The body can
leave in three ways — the early `return` when no identifier is eligible,
normal completion of the batch loop, or a thrown error landing in the
`catch` — and each path runs the `finally` block, which sets
`busy = false`.  The events below are those suspension points; `running`
is a ghost counter of ticks currently inside the body. -/

/-- The three exit paths of the tick body. -/
inductive TickOutcome where
  | noneEligible | completed | errored
deriving DecidableEq, Repr

/-- A scheduling event (`fire` = `tick()` invoked) or the body of the
currently running tick finishing through one of its exit paths. -/
inductive SchedEvent where
  | fire
  | exitTick (o : TickOutcome)
deriving DecidableEq, Repr

structure SchedState where
  busy : Bool
  running : ℕ
deriving DecidableEq, Repr

/-- One scheduler step.  `fire` with `busy` set is the immediate
return: the state is unchanged (skipped, not queued).  `exitTick o` is the
`finally` block: `busy = false`, for every outcome `o`.  An `exitTick`
with nothing running cannot occur in a real trace (each exit matches a
prior entry) and is a no-op. -/
def schedStep (s : SchedState) : SchedEvent → SchedState
  | .fire => if s.busy then s else { busy := true, running := s.running + 1 }
  | .exitTick _ => if s.running = 0 then s else { busy := false, running := s.running - 1 }

/-- Run a sequence of scheduling events from the initial state
(`let busy = false;`, nothing running). -/
def schedRun (evs : List SchedEvent) : SchedState :=
  evs.foldl schedStep ⟨false, 0⟩

/-- The mutual-exclusion invariant: at most one tick is executing, and the
busy flag is set exactly while one is. -/
def schedInv (s : SchedState) : Prop :=
  s.running ≤ 1 ∧ s.busy = decide (s.running = 1)

instance (s : SchedState) : Decidable (schedInv s) := by
  unfold schedInv; infer_instance

/-! ## Batch loop of one tick (src/index.js lines 150-199)

The body filters the monitored ids by the calendar policy, chunks the
eligible ids into groups of 200, and runs each group through
fetch-then-submit (both already retry-wrapped); `pipe` below is that
combined per-group pipeline, returning the transaction hash or the error
that exhausted its retries.  A throw leaves the `for (const group of
groups)` loop at once and lands in the tick-level `catch`, which only
logs. -/

/-- Process the groups in order.  Returns the groups attempted (a fetch was
issued for them), the successful submissions with their transaction
hashes (in order; nothing is ever removed — no rollback), and the error
that aborted the loop, if any. -/
def runGroups (pipe : List ℕ → Except String String) :
    List (List ℕ) → List (List ℕ) × List (List ℕ × String) × Option String
  | [] => ([], [], none)
  | g :: gs =>
    match pipe g with
    | .ok r =>
      let rest := runGroups pipe gs
      (g :: rest.1, (g, r) :: rest.2.1, rest.2.2)
    | .error e => ([g], [], some e)

/-- The observable outcome of one `tick()` call. -/
structure TickExec where
  busyAfter : Bool
  attempted : List (List ℕ)
  submitted : List (List ℕ × String)
  errorLogged : Option String
deriving DecidableEq, Repr

/-- One `tick()` call: the busy guard, the eligibility filter, the
empty-eligible early return, the batch loop under `try`, the `catch` that
records the error, and the `finally` that clears `busy`.  The NY-local
instant is passed as (weekday, minutes) as in `isAllowedNowByCategory`.
`tickExec` is a total function: no error escapes the tick boundary. -/
def tickExec (busy : Bool) (monitored : List ℕ) (weekday minutes : ℕ)
    (pipe : List ℕ → Except String String) : TickExec :=
  if busy then ⟨true, [], [], none⟩
  else
    let allowed := monitored.filter
      (fun id => isAllowedNowByCategory (getCategory id) weekday minutes)
    if allowed.isEmpty then ⟨false, [], [], none⟩
    else
      let r := runGroups pipe (chunk allowed 200)
      ⟨false, r.1, r.2.1, r.2.2⟩

/-- A sequence of scheduled ticks (each with its instant and pipeline),
threading only the busy flag — the one piece of cross-tick mutable state.
Returns the flag after the last tick. -/
def runTicks (monitored : List ℕ)
    (ticks : List ((ℕ × ℕ) × (List ℕ → Except String String))) : Bool :=
  ticks.foldl
    (fun busy t => (tickExec busy monitored t.1.1 t.1.2 t.2).busyAfter) false

/-! ## Retry policies (src/index.js lines 171-184; part_001 lines 115-133)

`pRetry(fn, { retries, factor, minTimeout, maxTimeout })` calls `fn` up to
`retries + 1` times, resolving with the first fulfilled attempt and
rejecting with the last error once attempts are exhausted.  The wait
before retry number `k+1` (`k = 0, 1, ...`) is
`min(minTimeout * factor^k, maxTimeout)` (the formula of the `retry` module
with `randomize` off).  Attempts are modelled as a function from the
1-based attempt number to the outcome of that attempt. -/

/-- Run attempt `i`, then up to `n` further attempts on failure.  Also
returns the list of attempt numbers actually issued. -/
def runAttemptsT (f : ℕ → Except E A) : ℕ → ℕ → Except E A × List ℕ
  | i, 0 => (f i, [i])
  | i, n + 1 =>
    match f i with
    | .ok a => (.ok a, [i])
    | .error _ =>
      let rest := runAttemptsT f (i + 1) n
      (rest.1, i :: rest.2)

/-- Embeds `pRetry` with a retry budget: attempt 1 plus up to `retries` retries. -/
def pRetryRun (retries : ℕ) (f : ℕ → Except E A) : Except E A × List ℕ :=
  runAttemptsT f 1 retries

/-- Backoff wait before retry `k+1`: `min(minTimeout * factor^k, maxTimeout)`. -/
def backoffDelay (minTimeout maxTimeout factor : ℚ) (k : ℕ) : ℚ :=
  min (minTimeout * factor ^ k) maxTimeout

/-- The fetch call site: `{ retries: 3, factor: 1.6, minTimeout: 400,
maxTimeout: 1500 }`. -/
def fetchWithRetry (f : ℕ → Except E A) : Except E A × List ℕ := pRetryRun 3 f

/-- The waits between the four fetch attempts. -/
def fetchRetryDelays : List ℚ := (List.range 3).map (backoffDelay 400 1500 (8/5))

/-- The submit call site: `{ retries: 2, factor: 1.5, minTimeout: 500,
maxTimeout: 2000 }`. -/
def submitWithRetry (f : ℕ → Except E A) : Except E A × List ℕ := pRetryRun 2 f

/-- The waits between the three submit attempts. -/
def submitRetryDelays : List ℚ := (List.range 2).map (backoffDelay 500 2000 (3/2))

/-! ## Proof fetch validation (`fetchProof`, part_001 lines 115-133)

One attempt of the part_001 `fetchProof`: `fetch(url)` either rejects
(transport failure) or yields a response with an `ok` flag; `r.json()`
either rejects (unparseable body) or yields a value whose `proof` field is
some JavaScript value (`undefined` when absent).  The embedding carries
exactly that `proof` field. -/

/-- The JavaScript value found in the `proof` field of the parsed body. -/
inductive JsVal where
  | undef
  | jsNull
  | num (n : ℤ)
  | boolean (b : Bool)
  | str (s : List Char)
  | obj
deriving DecidableEq, Repr

/-- JS truthiness test (`!j.proof`): `undefined`, `null`, `0`, `false` and
`""` are falsy. -/
def jsFalsy : JsVal → Bool
  | .undef => true
  | .jsNull => true
  | .num n => n = 0
  | .boolean b => ¬b
  | .str s => s.isEmpty
  | .obj => false

/-- The observable outcome of one `fetch` + `r.json()` round trip:
transport rejection, or a response with its `ok` flag and — when the body
parses as JSON — the `proof` field of the parsed value. -/
inductive FetchResponse where
  | transportFail
  | resp (ok : Bool) (proofField : Option JsVal)
deriving DecidableEq, Repr

/-- Error labels for the throw sites of `fetchProof`. -/
inductive FetchError where
  | transport | httpStatus | badJson | missingProof | emptyProof | malformedProof
deriving DecidableEq, Repr

/-- One attempt of the part_001 `fetchProof`: `if (!r.ok) throw`; then
`if (!j.proof || typeof j.proof !== "string") throw`; then
`const p = j.proof.trim()`; `if (p === "" || p === "0x") throw`;
`if (!p.startsWith("0x")) throw`; `return p`. -/
def fetchProofAttempt : FetchResponse → Except FetchError (List Char)
  | .transportFail => .error .transport
  | .resp ok body =>
    if ¬ok then .error .httpStatus
    else
      match body with
      | none => .error .badJson
      | some v =>
        if jsFalsy v then .error .missingProof
        else
          match v with
          | .str s =>
            let p := trimChars s
            if p.isEmpty ∨ p = ['0', 'x'] then .error .emptyProof
            else if ¬(p.take 2 = ['0', 'x']) then .error .malformedProof
            else .ok p
          | _ => .error .missingProof

/-- Embeds `fetchProof` with its retry wrapper, over the per-attempt responses. -/
def fetchProofRun (rs : ℕ → FetchResponse) : Except FetchError (List Char) × List ℕ :=
  fetchWithRetry (fun i => fetchProofAttempt (rs i))

/-- Failure condition for one fetch attempt as the spec words it (§4.4 / claim C7): the transport call fails, the status is not
success, the body cannot be parsed, the payload field is absent /
wrong-typed / empty (a bare `0x` counting as empty), or it does not begin
with the `0x` marker. -/
def specFetchFails : FetchResponse → Bool
  | .transportFail => true
  | .resp ok body =>
    ¬ok ||
      match body with
      | none => true
      | some (.str s) =>
        s.isEmpty || (trimChars s).isEmpty || trimChars s = ['0', 'x'] ||
          ¬((trimChars s).take 2 = ['0', 'x'])
      | some _ => true

/-! ## Re-arm delay (src/index.js lines 202-212; part_001 lines 188-193)

The `Math.random()` draw is modelled as a rational `r` with `0 ≤ r < 1`. -/

/-- src/index.js (and part_002) re-arm with `setInterval(tick, INTERVAL_MS)`:
the delay between consecutive scheduled fires is the constant interval,
independent of any random draw and of when the tick completed. -/
def rearmDelaySetInterval (intervalMs : ℕ) (_r : ℚ) : ℚ := intervalMs

/-- Embeds `Math.floor(Math.random() * 300)` from the `loop` of part_001. -/
def jitterOf (r : ℚ) : ℤ := ⌊(300 : ℚ) * r⌋

/-- Embeds the `loop` of part_001: after `await tick()` completes,
`setTimeout(loop, INTERVAL_MS + jitter)`. -/
def rearmDelayLoop (intervalMs : ℕ) (r : ℚ) : ℚ := intervalMs + jitterOf r

/-! ## Concrete collaborators used to instantiate the theorems -/

/-- A pipeline that succeeds on group `[1]` and fails on every other group. -/
def pipeDemo : List ℕ → Except String String :=
  fun g => if g = [1] then .ok "0xaaa" else .error "boom"

/-- Attempt outcomes where the service answers 500 three times and then
succeeds. -/
def attemptsDemo : ℕ → Except String String :=
  fun i => if i ≤ 3 then .error "HTTP 500" else .ok "0xproof"

/-- Attempt outcomes where the service is unreachable on every attempt. -/
def attemptsDown : ℕ → Except String String :=
  fun _ => .error "fetch failed"

/-! ## Helper lemmas -/

/-- The fuel argument of `chunkGo` is irrelevant once it covers the list
length. -/
theorem chunkGo_fuel (size : ℕ) (f1 f2 : ℕ) (l : List α)
    (h1 : l.length ≤ f1) (h2 : l.length ≤ f2) :
    chunkGo size f1 l = chunkGo size f2 l := by
  induction f1 generalizing f2 l with
  | zero =>
    cases l with
    | nil => cases f2 <;> rfl
    | cons a l => simp at h1
  | succ f1 ih =>
    cases l with
    | nil => cases f2 <;> rfl
    | cons a l =>
      cases f2 with
      | zero => simp at h2
      | succ f2 =>
        simp only [chunkGo]
        congr 1
        have hd := List.length_drop (size - 1) l
        simp only [List.length_cons] at h1 h2
        exact ih _ _ (by omega) (by omega)

/-- Unfolding rule for `chunk` on a non-empty list. -/
theorem chunk_cons (a : α) (l : List α) (size : ℕ) :
    chunk (a :: l) size = (a :: l.take (size - 1)) :: chunk (l.drop (size - 1)) size := by
  unfold chunk
  simp only [List.length_cons, chunkGo]
  congr 1
  have hd := List.length_drop (size - 1) l
  exact chunkGo_fuel size _ _ _ (by omega) (le_refl _)

theorem chunk_nil (size : ℕ) : chunk ([] : List α) size = [] := rfl

theorem chunk_eq_nil_iff (l : List α) (size : ℕ) : chunk l size = [] ↔ l = [] := by
  cases l with
  | nil => simp [chunk_nil]
  | cons a l => simp [chunk_cons]

theorem chunk_flatten_aux (size : ℕ) (_hs : 1 ≤ size) :
    ∀ (n : ℕ) (l : List α), l.length ≤ n → (chunk l size).flatten = l := by
  intro n
  induction n with
  | zero =>
    intro l h
    have : l = [] := List.eq_nil_of_length_eq_zero (Nat.le_zero.mp h)
    simp [this, chunk_nil]
  | succ n ih =>
    intro l h
    cases l with
    | nil => simp [chunk_nil]
    | cons a l =>
      rw [chunk_cons, List.flatten_cons, ih (l.drop (size - 1)) ?_]
      · rw [List.cons_append, List.take_append_drop]
      · have hd := List.length_drop (size - 1) l
        simp only [List.length_cons] at h
        omega

/-- For `size ≥ 1`, the chunks concatenate back to the input. -/
theorem chunk_flatten (size : ℕ) (hs : 1 ≤ size) (l : List α) :
    (chunk l size).flatten = l :=
  chunk_flatten_aux size hs l.length l (le_refl _)

theorem chunk_mem_aux (size : ℕ) (hs : 1 ≤ size) :
    ∀ (n : ℕ) (l : List α), l.length ≤ n →
      ∀ c ∈ chunk l size, c.length ≤ size ∧ c ≠ [] := by
  intro n
  induction n with
  | zero =>
    intro l h
    have : l = [] := List.eq_nil_of_length_eq_zero (Nat.le_zero.mp h)
    simp [this, chunk_nil]
  | succ n ih =>
    intro l h c hc
    cases l with
    | nil => simp [chunk_nil] at hc
    | cons a l =>
      rw [chunk_cons] at hc
      rcases List.mem_cons.mp hc with rfl | hc
      · refine ⟨?_, by simp⟩
        simp only [List.length_cons, List.length_take]
        omega
      · refine ih (l.drop (size - 1)) ?_ c hc
        have hd := List.length_drop (size - 1) l
        simp only [List.length_cons] at h
        omega

/-- For `size ≥ 1`, every chunk has length at most `size` and is non-empty. -/
theorem chunk_mem (size : ℕ) (hs : 1 ≤ size) (l : List α) :
    ∀ c ∈ chunk l size, c.length ≤ size ∧ c ≠ [] :=
  chunk_mem_aux size hs l.length l (le_refl _)

theorem chunk_dropLast_aux (size : ℕ) (hs : 1 ≤ size) :
    ∀ (n : ℕ) (l : List α), l.length ≤ n →
      ∀ c ∈ (chunk l size).dropLast, c.length = size := by
  intro n
  induction n with
  | zero =>
    intro l h
    have : l = [] := List.eq_nil_of_length_eq_zero (Nat.le_zero.mp h)
    simp [this, chunk_nil]
  | succ n ih =>
    intro l h c hc
    cases l with
    | nil => simp [chunk_nil] at hc
    | cons a l =>
      rw [chunk_cons] at hc
      cases hrest : chunk (l.drop (size - 1)) size with
      | nil => rw [hrest] at hc; simp at hc
      | cons r rs =>
        rw [hrest, List.dropLast_cons₂] at hc
        have hne : l.drop (size - 1) ≠ [] := by
          intro hnil
          rw [hnil, chunk_nil] at hrest
          exact List.noConfusion hrest
        have hlen : size ≤ l.length := by
          have hd := List.length_drop (size - 1) l
          have : 0 < (l.drop (size - 1)).length := List.length_pos.mpr hne
          omega
        rcases List.mem_cons.mp hc with rfl | hc
        · simp only [List.length_cons, List.length_take]
          omega
        · have := ih (l.drop (size - 1)) ?_ c (by rw [hrest]; exact hc)
          · exact this
          · have hd := List.length_drop (size - 1) l
            simp only [List.length_cons] at h
            omega

/-- For `size ≥ 1`, every chunk except possibly the last has length exactly
`size`. -/
theorem chunk_dropLast (size : ℕ) (hs : 1 ≤ size) (l : List α) :
    ∀ c ∈ (chunk l size).dropLast, c.length = size :=
  chunk_dropLast_aux size hs l.length l (le_refl _)

theorem mem_setInsert (acc : List (Option ℤ)) (v x : Option ℤ) :
    x ∈ setInsert acc v ↔ x ∈ acc ∨ x = v := by
  unfold setInsert
  split_ifs with h
  · constructor
    · exact Or.inl
    · rintro (hx | rfl)
      · exact hx
      · exact h
  · simp [List.mem_append]

theorem mem_foldl_setInsert (vs : List (Option ℤ)) :
    ∀ (acc : List (Option ℤ)) (x : Option ℤ),
      x ∈ vs.foldl setInsert acc ↔ x ∈ acc ∨ x ∈ vs := by
  induction vs with
  | nil => simp
  | cons v vs ih =>
    intro acc x
    simp only [List.foldl_cons, ih, mem_setInsert, List.mem_cons]
    tauto

theorem nodup_setInsert (acc : List (Option ℤ)) (v : Option ℤ) (h : acc.Nodup) :
    (setInsert acc v).Nodup := by
  unfold setInsert
  split_ifs with hv
  · exact h
  · simpa [List.nodup_append] using ⟨h, hv⟩

theorem nodup_foldl_setInsert (vs : List (Option ℤ)) :
    ∀ acc : List (Option ℤ), acc.Nodup → (vs.foldl setInsert acc).Nodup := by
  induction vs with
  | nil => exact fun _ h => h
  | cons v vs ih => exact fun acc h => ih _ (nodup_setInsert acc v h)

theorem expandSet_nodup (s : List Char) : (expandSet s).Nodup :=
  nodup_foldl_setInsert _ [] List.nodup_nil

theorem mem_expandSet (s : List Char) (x : Option ℤ) :
    x ∈ expandSet s ↔ ∃ t ∈ specTokens s, x ∈ tokenVals t := by
  unfold expandSet
  rw [mem_foldl_setInsert]
  simp [List.mem_flatMap]

theorem runAttemptsT_length (f : ℕ → Except E A) :
    ∀ (n i : ℕ), ((runAttemptsT f i n).2).length ≤ n + 1 := by
  intro n
  induction n with
  | zero => intro i; simp [runAttemptsT]
  | succ n ih =>
    intro i
    simp only [runAttemptsT]
    cases f i with
    | ok a => simp
    | error e =>
      simp only [List.length_cons]
      exact Nat.succ_le_succ (ih (i + 1))

theorem runAttemptsT_mem (f : ℕ → Except E A) :
    ∀ (n i j : ℕ), j ∈ (runAttemptsT f i n).2 → i ≤ j ∧ j ≤ i + n := by
  intro n
  induction n with
  | zero =>
    intro i j h
    simp [runAttemptsT] at h
    omega
  | succ n ih =>
    intro i j h
    simp only [runAttemptsT] at h
    cases hfi : f i with
    | ok a =>
      rw [hfi] at h
      simp at h
      omega
    | error e =>
      rw [hfi] at h
      simp only [List.mem_cons] at h
      rcases h with rfl | h
      · omega
      · have := ih (i + 1) j h
        omega

theorem runAttemptsT_allFail (f : ℕ → Except E A) :
    ∀ (n i : ℕ), (∀ j, i ≤ j → j ≤ i + n → (f j).isOk = false) →
      (runAttemptsT f i n).1 = f (i + n) := by
  intro n
  induction n with
  | zero => intro i _; simp [runAttemptsT]
  | succ n ih =>
    intro i h
    simp only [runAttemptsT]
    cases hfi : f i with
    | ok a =>
      have := h i (le_refl _) (by omega)
      rw [hfi] at this
      simp [Except.isOk, Except.toBool] at this
    | error e =>
      have := ih (i + 1) (fun j h1 h2 => h j (by omega) (by omega))
      simpa [show i + 1 + n = i + (n + 1) by omega] using this

theorem runAttemptsT_firstOk (f : ℕ → Except E A) (a : A) :
    ∀ (n i m : ℕ), i ≤ m → m ≤ i + n →
      (∀ j, i ≤ j → j < m → (f j).isOk = false) → f m = .ok a →
      (runAttemptsT f i n).1 = .ok a := by
  intro n
  induction n with
  | zero =>
    intro i m h1 h2 _ hm
    have : m = i := by omega
    subst this
    simpa [runAttemptsT] using hm
  | succ n ih =>
    intro i m h1 h2 hfail hm
    simp only [runAttemptsT]
    rcases Nat.eq_or_lt_of_le h1 with rfl | hlt
    · rw [hm]
    · cases hfi : f i with
      | ok b =>
        have := hfail i (le_refl _) hlt
        rw [hfi] at this
        simp [Except.isOk, Except.toBool] at this
      | error e =>
        exact ih (i + 1) m (by omega) (by omega)
          (fun j hj1 hj2 => hfail j (by omega) hj2) hm

theorem runAttemptsT_ok_exists (f : ℕ → Except E A) (a : A) :
    ∀ (n i : ℕ), (runAttemptsT f i n).1 = .ok a → ∃ j, f j = .ok a := by
  intro n
  induction n with
  | zero =>
    intro i h
    exact ⟨i, by simpa [runAttemptsT] using h⟩
  | succ n ih =>
    intro i h
    simp only [runAttemptsT] at h
    cases hfi : f i with
    | ok b =>
      rw [hfi] at h
      simp at h
      exact ⟨i, by rw [hfi, h]⟩
    | error e =>
      rw [hfi] at h
      exact ih (i + 1) h

/-! ## Claim theorems -/

/-- C2: for every category and NY-local instant, `isAllowedNowByCategory`
agrees with the calendar rules of the spec (crypto always; fxcom/index on NY
weekdays Monday-Friday; equity on those weekdays with NY minutes in
[570, 990], i.e. 09:30-16:30 inclusive; unknown never), with the
inclusive/exclusive boundaries witnessed at Monday 09:29/09:30/16:30/16:31
and equity ineligible on Saturday and Sunday. -/
theorem claim_C2 :
    (∀ (cat : Cat) (weekday minutes : ℕ),
      isAllowedNowByCategory cat weekday minutes = true ↔
        calendarSpec cat weekday minutes) ∧
    isAllowedNowByCategory .equity 1 570 = true ∧
    isAllowedNowByCategory .equity 1 990 = true ∧
    isAllowedNowByCategory .equity 1 569 = false ∧
    isAllowedNowByCategory .equity 1 991 = false ∧
    (∀ minutes, isAllowedNowByCategory .equity 6 minutes = false) ∧
    (∀ minutes, isAllowedNowByCategory .equity 7 minutes = false) ∧
    (∀ weekday minutes, isAllowedNowByCategory .crypto weekday minutes = true) ∧
    (∀ weekday minutes, isAllowedNowByCategory .unknown weekday minutes = false) := by
  refine ⟨?_, by decide, by decide, by decide, by decide, ?_, ?_, fun _ _ => rfl,
    fun _ _ => rfl⟩
  · intro cat wd m
    cases cat with
    | crypto => simp [isAllowedNowByCategory, calendarSpec]
    | fxcom => simp [isAllowedNowByCategory, calendarSpec]
    | index => simp [isAllowedNowByCategory, calendarSpec]
    | equity =>
      simp only [isAllowedNowByCategory, calendarSpec]
      split_ifs with h
      · simp only [decide_eq_true_eq]
        exact ⟨fun hm => ⟨h, hm⟩, fun hc => hc.2⟩
      · exact ⟨fun hfalse => by simp at hfalse, fun hc => absurd hc.1 h⟩
    | unknown => simp [isAllowedNowByCategory, calendarSpec]
  · intro m; rfl
  · intro m; rfl

/-- C5: `getCategory` first uses an exact match in the explicit `ASSETS`
table, otherwise range inference; range inference equals the rule of the spec
(crypto on [0,1000], fxcom on [5000,5600], equity for id ≥ 6000, unknown
otherwise) and never yields `index`; an explicit `index` entry (id 6113)
overrides the `equity` inference. -/
theorem claim_C5 :
    (∀ (id : ℕ) (a : Asset),
      ASSETS.find? (fun x => x.id = id) = some a → getCategory id = a.cat) ∧
    (∀ id : ℕ,
      ASSETS.find? (fun x => x.id = id) = none →
        getCategory id = inferCategoryById id) ∧
    (∀ id : ℕ, inferCategoryById id = inferSpec id) ∧
    (∀ id : ℕ, inferCategoryById id ≠ .index) ∧
    getCategory 6113 = .index ∧ inferCategoryById 6113 = .equity := by
  refine ⟨?_, ?_, ?_, ?_, by decide, by decide⟩
  · intro id a h
    unfold getCategory
    rw [h]
  · intro id h
    unfold getCategory
    rw [h]
  · intro id
    unfold inferCategoryById inferSpec
    split_ifs <;> first | rfl | omega
  · intro id
    unfold inferCategoryById
    split_ifs <;> decide

theorem claim_C5_witness :
    getCategory 0 = Cat.crypto ∧ getCategory 9999 = inferCategoryById 9999 ∧
    inferCategoryById 700 = inferSpec 700 :=
  ⟨claim_C5.1 0 ⟨0, .crypto⟩ (by decide), claim_C5.2.1 9999 (by decide),
    claim_C5.2.2.1 700⟩

/-- C6 counterexample: in the src/index.js `expandRanges` (which has no
`Number.isFinite` filter) the non-numeric token `"x"` is NOT silently
dropped: `Number("x")` is `NaN` (modelled `none`), the `Set` keeps it, and
the result is `[NaN]` rather than the empty list that the claimed
"silently drops non-numeric/invalid tokens" would give. -/
theorem claim_C6_counterexample :
    expandRanges "x".toList = [none] ∧
    ([none] : List (Option ℤ)) ≠ [] ∧
    jsNumber "x".toList = none := by decide

/-- C6 amended: `expandRanges` splits on commas, interprets a token
containing `-` as an inclusive range with bounds normalized to either
order and any other token as `Number(token)`, and returns a deduplicated,
ascending-sorted result; the part_001/part_002 variant
(`expandRangesV2`, with the `Number.isFinite` filter) silently drops
non-numeric tokens without throwing, while the src/index.js variant keeps
a `NaN` entry for a non-numeric single token (non-numeric range tokens
contribute nothing in both).  Every element of the filtered result comes
from some token of the comma-split. -/
theorem claim_C6 :
    (∀ s : List Char,
      (expandRangesV2 s).Sorted (· ≤ ·) ∧ (expandRangesV2 s).Nodup) ∧
    (∀ (s : List Char) (x : ℤ),
      x ∈ expandRangesV2 s ↔ ∃ t ∈ specTokens s, some x ∈ tokenVals t) ∧
    expandRanges "0-2,5".toList = [some 0, some 1, some 2, some 5] ∧
    expandRanges "5-3".toList = [some 3, some 4, some 5] ∧
    expandRangesV2 "0-2,5".toList = [0, 1, 2, 5] ∧
    expandRangesV2 "5-3".toList = [3, 4, 5] ∧
    expandRangesV2 "foo,1".toList = [1] ∧
    expandRangesV2 "x".toList = [] := by
  refine ⟨?_, ?_, by decide, by decide, by decide, by decide, by decide, by decide⟩
  · intro s
    unfold expandRangesV2
    split_ifs with h
    · simp
    · constructor
      · exact List.sorted_insertionSort _ _
      · refine ((List.perm_insertionSort _ _).nodup_iff).mpr ?_
        refine List.Nodup.filterMap ?_ (expandSet_nodup s)
        intro a a' b hb hb'
        simp only [id, Option.mem_def] at hb hb'
        rw [hb, hb']
  · intro s x
    unfold expandRangesV2
    split_ifs with h
    · have hs : s = [] := by
        cases s with
        | nil => rfl
        | cons a s => simp [List.isEmpty] at h
      subst hs
      simp [specTokens, splitOnChar, trimChars, List.dropWhile]
    · rw [(List.perm_insertionSort _ _).mem_iff]
      simp only [List.mem_filterMap, id, Option.mem_def]
      rw [show (∃ a, a ∈ expandSet s ∧ a = some x) ↔ some x ∈ expandSet s by
        constructor
        · rintro ⟨a, ha, rfl⟩; exact ha
        · intro hx; exact ⟨some x, hx, rfl⟩]
      exact mem_expandSet s (some x)

set_option maxRecDepth 40000 in
/-- C8: for every input sequence and every `maxSize ≥ 1`, `chunk` returns
ordered groups each of length at most `maxSize` (all but possibly the
last of length exactly `maxSize`, none empty) whose concatenation is the
original sequence; a 450-element input with `maxSize` 200 yields groups of
sizes 200, 200, 50. -/
theorem claim_C8 :
    (∀ (α : Type) (l : List α) (size : ℕ), 1 ≤ size →
      (chunk l size).flatten = l ∧
      (∀ c ∈ chunk l size, c.length ≤ size ∧ c ≠ []) ∧
      (∀ c ∈ (chunk l size).dropLast, c.length = size)) ∧
    (chunk (List.range 450) 200).map List.length = [200, 200, 50] := by
  constructor
  · intro α l size hs
    exact ⟨chunk_flatten size hs l, chunk_mem size hs l, chunk_dropLast size hs l⟩
  · decide

theorem claim_C8_witness :
    (chunk [1, 2, 3, 4, 5] 2).flatten = [1, 2, 3, 4, 5] :=
  (claim_C8.1 ℕ [1, 2, 3, 4, 5] 2 (by norm_num)).1

/-- C10: a token beginning with `-` (such as `"-5"`) goes down the range
branch with the empty string as left part; `Number("")` is `0`, so the
token expands to the full inclusive range [0, 5] — in both variants — and
is neither dropped nor read as the single integer -5. -/
theorem claim_C10 :
    splitOnChar '-' "-5".toList = [[], "5".toList] ∧
    jsNumber [] = some 0 ∧
    expandRanges "-5".toList =
      [some 0, some 1, some 2, some 3, some 4, some 5] ∧
    expandRangesV2 "-5".toList = [0, 1, 2, 3, 4, 5] ∧
    expandRanges "-5".toList ≠ [some (-5)] := by decide

/-- C1: the busy flag gives mutual exclusion.  A scheduling event that
fires while busy leaves the state unchanged (the tick is skipped, not
queued and no step is performed); every exit path of the tick body —
empty eligible set, normal completion, or a thrown error — clears the
busy flag; and along every event sequence at most one tick is executing,
with the busy flag set exactly while one is. -/
theorem claim_C1 :
    (∀ s : SchedState, s.busy = true → schedStep s .fire = s) ∧
    (∀ (s : SchedState) (o : TickOutcome), s.running ≠ 0 →
      (schedStep s (.exitTick o)).busy = false) ∧
    (∀ evs : List SchedEvent, schedInv (schedRun evs)) := by
  refine ⟨?_, ?_, ?_⟩
  · intro s h
    simp [schedStep, h]
  · intro s o h
    simp [schedStep, h]
  · have key : ∀ (s : SchedState) (e : SchedEvent),
        schedInv s → schedInv (schedStep s e) := by
      intro s e hs
      rcases hs with ⟨h1, h2⟩
      cases e with
      | fire =>
        simp only [schedStep]
        split_ifs with hb
        · exact ⟨h1, h2⟩
        · have h0 : s.running = 0 := by
            rcases Nat.lt_or_ge s.running 1 with h | h
            · omega
            · exfalso
              have : s.running = 1 := by omega
              rw [this] at h2
              simp at h2
              exact hb h2
          exact ⟨by simp [h0], by simp [h0]⟩
      | exitTick o =>
        simp only [schedStep]
        split_ifs with hr
        · exact ⟨h1, h2⟩
        · have hr1 : s.running = 1 := by omega
          exact ⟨by simp [hr1], by simp [hr1]⟩
    have fold : ∀ (evs : List SchedEvent) (s : SchedState),
        schedInv s → schedInv (evs.foldl schedStep s) := by
      intro evs
      induction evs with
      | nil => exact fun s h => h
      | cons e evs ih => exact fun s hs => ih _ (key s e hs)
    exact fun evs => fold evs ⟨false, 0⟩ (by constructor <;> simp)

theorem claim_C1_witness :
    schedStep ⟨true, 1⟩ .fire = ⟨true, 1⟩ ∧
    (schedStep ⟨true, 1⟩ (.exitTick .errored)).busy = false ∧
    schedInv (schedRun [.fire, .fire, .exitTick .completed]) :=
  ⟨claim_C1.1 ⟨true, 1⟩ rfl, claim_C1.2.1 ⟨true, 1⟩ .errored (by decide),
    claim_C1.2.2 [.fire, .fire, .exitTick .completed]⟩

/-- C3: if the pipeline for batch `k` errors (after its retries), no later
batch is attempted in that tick, the successful earlier submissions are
exactly batches 0..k-1 (not rolled back), the error is recorded by the
tick-level catch, and no error escapes: `tickExec` leaves the busy flag
clear, so any number of consecutive failing ticks still leaves the
scheduler able to run the next tick. -/
theorem claim_C3 :
    (∀ (pipe : List ℕ → Except String String) (gs : List (List ℕ)) (k : ℕ),
      k < gs.length →
      (∀ g ∈ gs.take k, ∃ r, pipe g = .ok r) →
      (∃ e, pipe (gs.getD k []) = .error e) →
      (runGroups pipe gs).1 = gs.take (k + 1) ∧
      ((runGroups pipe gs).2.1).map Prod.fst = gs.take k ∧
      (∃ e, pipe (gs.getD k []) = .error e ∧ (runGroups pipe gs).2.2 = some e)) ∧
    (∀ (monitored : List ℕ) (weekday minutes : ℕ)
        (pipe : List ℕ → Except String String),
      (tickExec false monitored weekday minutes pipe).busyAfter = false) ∧
    (∀ (monitored : List ℕ)
        (ticks : List ((ℕ × ℕ) × (List ℕ → Except String String))),
      runTicks monitored ticks = false) := by
  have hbusy : ∀ (monitored : List ℕ) (weekday minutes : ℕ)
      (pipe : List ℕ → Except String String),
      (tickExec false monitored weekday minutes pipe).busyAfter = false := by
    intro monitored wd m pipe
    unfold tickExec
    simp only [Bool.false_eq_true, if_false]
    split_ifs <;> rfl
  refine ⟨?_, hbusy, ?_⟩
  · intro pipe gs
    induction gs with
    | nil =>
      intro k hk
      simp at hk
    | cons g gs ih =>
      intro k hk hok herr
      cases k with
      | zero =>
        rcases herr with ⟨e, he⟩
        simp only [List.getD_cons_zero] at he
        simp only [runGroups, he]
        exact ⟨rfl, rfl, ⟨e, by simp [he]⟩⟩
      | succ k =>
        have hg : ∃ r, pipe g = .ok r :=
          hok g (by simp [List.take_succ_cons])
        rcases hg with ⟨r, hr⟩
        simp only [runGroups, hr]
        have hk' : k < gs.length := by simpa using hk
        have hok' : ∀ g' ∈ gs.take k, ∃ r', pipe g' = .ok r' := by
          intro g' hg'
          exact hok g' (by simp [List.take_succ_cons, hg'])
        have herr' : ∃ e, pipe (gs.getD k []) = .error e := by
          simpa using herr
        rcases ih k hk' hok' herr' with ⟨ha, hsub, he⟩
        refine ⟨by simp [List.take_succ_cons, ha], by simp [List.take_succ_cons, hsub], ?_⟩
        simpa using he
  · intro monitored ticks
    have : ∀ b, b = false → ticks.foldl
        (fun busy t => (tickExec busy monitored t.1.1 t.1.2 t.2).busyAfter) b = false := by
      induction ticks with
      | nil => exact fun b hb => hb
      | cons t ts ih =>
        intro b hb
        subst hb
        exact ih _ (hbusy monitored t.1.1 t.1.2 t.2)
    exact this false rfl

theorem claim_C3_witness :
    (runGroups pipeDemo [[1], [2], [3]]).1 = [[1], [2]] ∧
    ((runGroups pipeDemo [[1], [2], [3]]).2.1).map Prod.fst = [[1]] ∧
    (runGroups pipeDemo [[1], [2], [3]]).2.2 = some "boom" := by
  have h := claim_C3.1 pipeDemo [[1], [2], [3]] 1 (by decide)
    (by
      intro g hg
      simp at hg
      subst hg
      exact ⟨"0xaaa", rfl⟩)
    ⟨"boom", rfl⟩
  rcases h with ⟨h1, h2, e, he, hrun⟩
  refine ⟨by simpa using h1, by simpa using h2, ?_⟩
  have : e = "boom" := by
    have := he.symm
    simpa [pipeDemo] using this
  rw [hrun, this]

/-- C4: the fetch retry wrapper issues at most 4 attempts (3 retries) with
waits 400ms, 640ms, 1024ms (each `min(400 * 1.6^k, 1500)`, so capped at
1500ms); if the first three attempts fail and the fourth succeeds, the
payload of the fourth attempt is returned; if all four fail, the error of
the last attempt is propagated unchanged (no substitute payload).  The submit wrapper
issues at most 3 attempts (2 retries) with waits 500ms, 750ms (each
`min(500 * 1.5^k, 2000)`, capped at 2000ms) and propagates the last error
when retries are exhausted. -/
theorem claim_C4 :
    (∀ (E A : Type) (f : ℕ → Except E A),
      ((fetchWithRetry f).2).length ≤ 4 ∧
        ∀ j ∈ (fetchWithRetry f).2, 1 ≤ j ∧ j ≤ 4) ∧
    (∀ (E A : Type) (f : ℕ → Except E A) (p : A),
      (∀ j, 1 ≤ j → j ≤ 3 → (f j).isOk = false) → f 4 = .ok p →
      (fetchWithRetry f).1 = .ok p) ∧
    (∀ (E A : Type) (f : ℕ → Except E A),
      (∀ j, 1 ≤ j → j ≤ 4 → (f j).isOk = false) →
      (fetchWithRetry f).1 = f 4) ∧
    fetchRetryDelays =
      [backoffDelay 400 1500 (8/5) 0, backoffDelay 400 1500 (8/5) 1,
        backoffDelay 400 1500 (8/5) 2] ∧
    fetchRetryDelays = [400, 640, 1024] ∧
    (∀ k, backoffDelay 400 1500 (8/5) k ≤ 1500) ∧
    (∀ (E A : Type) (g : ℕ → Except E A),
      ((submitWithRetry g).2).length ≤ 3 ∧
        ∀ j ∈ (submitWithRetry g).2, 1 ≤ j ∧ j ≤ 3) ∧
    (∀ (E A : Type) (g : ℕ → Except E A),
      (∀ j, 1 ≤ j → j ≤ 3 → (g j).isOk = false) →
      (submitWithRetry g).1 = g 3) ∧
    submitRetryDelays = [500, 750] ∧
    (∀ k, backoffDelay 500 2000 (3/2) k ≤ 2000) := by
  refine ⟨?_, ?_, ?_, ?_, ?_, fun k => min_le_right _ _, ?_, ?_, ?_,
    fun k => min_le_right _ _⟩
  · intro E A f
    exact ⟨runAttemptsT_length f 3 1, fun j hj => runAttemptsT_mem f 3 1 j hj⟩
  · intro E A f p hfail hok
    exact runAttemptsT_firstOk f p 3 1 4 (by omega) (by omega)
      (fun j h1 h2 => hfail j h1 (by omega)) hok
  · intro E A f hfail
    exact runAttemptsT_allFail f 3 1 (fun j h1 h2 => hfail j h1 (by omega))
  · rfl
  · unfold fetchRetryDelays backoffDelay
    norm_num [List.range_succ]
  · intro E A g
    exact ⟨runAttemptsT_length g 2 1, fun j hj => runAttemptsT_mem g 2 1 j hj⟩
  · intro E A g hfail
    exact runAttemptsT_allFail g 2 1 (fun j h1 h2 => hfail j h1 (by omega))
  · unfold submitRetryDelays backoffDelay
    norm_num [List.range_succ]

theorem claim_C4_witness :
    (fetchWithRetry attemptsDemo).1 = .ok "0xproof" ∧
    (fetchWithRetry attemptsDown).1 = .error "fetch failed" ∧
    (submitWithRetry attemptsDown).1 = .error "fetch failed" := by
  refine ⟨?_, ?_, ?_⟩
  · exact claim_C4.2.1 String String attemptsDemo "0xproof"
      (by
        intro j h1 h2
        interval_cases j <;> rfl)
      rfl
  · exact claim_C4.2.2.1 String String attemptsDown
      (by
        intro j h1 h2
        interval_cases j <;> rfl)
  · exact claim_C4.2.2.2.2.2.2.2.1 String String attemptsDown
      (by
        intro j h1 h2
        interval_cases j <;> rfl)

/-- C7: one attempt of the part_001 `fetchProof` fails exactly when the
transport call fails, the HTTP status is not ok, the body is not JSON, the
`proof` field is absent / not a string / empty (a bare `0x` counting as
empty), or the trimmed payload does not start with `0x`; consequently any
payload it — or the retry-wrapped `fetchProofRun` — returns is a non-empty
string that starts with `0x` and is not the bare `"0x"`. -/
theorem claim_C7 :
    (∀ (r : FetchResponse) (p : List Char),
      fetchProofAttempt r = .ok p →
      p.isEmpty = false ∧ p.take 2 = ['0', 'x'] ∧ p ≠ ['0', 'x']) ∧
    (∀ r : FetchResponse, (fetchProofAttempt r).isOk = !specFetchFails r) ∧
    (∀ (rs : ℕ → FetchResponse) (p : List Char),
      (fetchProofRun rs).1 = .ok p →
      p.isEmpty = false ∧ p.take 2 = ['0', 'x'] ∧ p ≠ ['0', 'x']) := by
  have hstr : ∀ (ok : Bool) (s : List Char),
      fetchProofAttempt (.resp ok (some (.str s))) =
        if ¬ok then .error .httpStatus
        else if s.isEmpty then .error .missingProof
        else if (trimChars s).isEmpty ∨ trimChars s = ['0', 'x'] then
          .error .emptyProof
        else if ¬((trimChars s).take 2 = ['0', 'x']) then
          .error .malformedProof
        else .ok (trimChars s) := fun _ _ => rfl
  have hA : ∀ (r : FetchResponse) (p : List Char),
      fetchProofAttempt r = .ok p →
      p.isEmpty = false ∧ p.take 2 = ['0', 'x'] ∧ p ≠ ['0', 'x'] := by
    intro r p h
    cases r with
    | transportFail => simp [fetchProofAttempt] at h
    | resp ok body =>
      cases ok with
      | false => simp [fetchProofAttempt] at h
      | true =>
        cases body with
        | none => simp [fetchProofAttempt] at h
        | some v =>
          cases v with
          | str s =>
            rw [hstr] at h
            split_ifs at h with hok h0 h1 h2
            simp only [Except.ok.injEq] at h
            subst h
            push_neg at h1
            refine ⟨?_, h2, h1.2⟩
            have hne : trimChars s ≠ [] := by
              intro hnil
              rw [hnil] at h1
              exact h1.1 rfl
            cases htr : trimChars s with
            | nil => exact absurd htr hne
            | cons c cs => simp [htr]
          | undef => simp [fetchProofAttempt, jsFalsy] at h
          | jsNull => simp [fetchProofAttempt, jsFalsy] at h
          | num n =>
            by_cases hn : n = 0 <;> simp [fetchProofAttempt, jsFalsy, hn] at h
          | boolean b => cases b <;> simp [fetchProofAttempt, jsFalsy] at h
          | obj => simp [fetchProofAttempt, jsFalsy] at h
  have hB : ∀ r : FetchResponse,
      (fetchProofAttempt r).isOk = !specFetchFails r := by
    intro r
    cases r with
    | transportFail => rfl
    | resp ok body =>
      cases ok with
      | false => rfl
      | true =>
        cases body with
        | none => rfl
        | some v =>
          cases v with
          | str s =>
            rw [hstr]
            by_cases h0 : s.isEmpty = true
            · simp [specFetchFails, h0, Except.isOk, Except.toBool]
            · by_cases h1 : (trimChars s).isEmpty = true
              · simp [specFetchFails, h0, h1, Except.isOk, Except.toBool]
              · by_cases h2 : trimChars s = ['0', 'x']
                · simp [specFetchFails, h0, h1, h2, Except.isOk, Except.toBool]
                · by_cases h3 : (trimChars s).take 2 = ['0', 'x'] <;>
                    simp [specFetchFails, h0, h1, h2, h3, Except.isOk,
                      Except.toBool]
          | undef => rfl
          | jsNull => rfl
          | num n =>
            by_cases hn : n = 0 <;>
              simp [fetchProofAttempt, specFetchFails, jsFalsy, hn,
                Except.isOk, Except.toBool]
          | boolean b => cases b <;> rfl
          | obj => rfl
  refine ⟨hA, hB, ?_⟩
  intro rs p h
  rcases runAttemptsT_ok_exists (fun i => fetchProofAttempt (rs i)) p 3 1 h with ⟨j, hj⟩
  exact hA (rs j) p hj

theorem claim_C7_witness :
    (("0xabc".toList).isEmpty = false ∧ ("0xabc".toList).take 2 = ['0', 'x'] ∧
      "0xabc".toList ≠ ['0', 'x']) ∧
    (fetchProofAttempt (.resp true (some (.str " 0xabc ".toList)))).isOk =
      !specFetchFails (.resp true (some (.str " 0xabc ".toList))) :=
  ⟨claim_C7.1 (.resp true (some (.str "0xabc".toList))) "0xabc".toList rfl,
    claim_C7.2.1 (.resp true (some (.str " 0xabc ".toList)))⟩

/-- C9 counterexample: src/index.js (and part_002) re-arm with
`setInterval(tick, INTERVAL_MS)` — with the default 5000ms interval the
delay between scheduled fires is 5000ms for every random draw, not
`interval + uniformRandom(0, 300)`: at draw 1/2 the claimed formula gives
5150ms. -/
theorem claim_C9_counterexample :
    rearmDelaySetInterval 5000 (1/2) = 5000 ∧
    (5000 : ℚ) + jitterOf (1/2) = 5150 ∧
    rearmDelaySetInterval 5000 (1/2) ≠ (5000 : ℚ) + jitterOf (1/2) := by
  have hj : jitterOf (1/2 : ℚ) = 150 := by
    unfold jitterOf
    norm_num
  refine ⟨rfl, by rw [hj]; norm_num, ?_⟩
  rw [show rearmDelaySetInterval 5000 (1/2) = (5000 : ℚ) from rfl, hj]
  norm_num

/-- C9 amended: only the `loop` of the part_001 variant re-arms each next tick
after `interval + Math.floor(Math.random() * 300)` milliseconds — a fresh
jitter in [0, 300) added to the interval — while src/index.js and part_002
use a plain `setInterval(tick, INTERVAL_MS)` whose firing cadence is the
constant interval with no jitter.  For the loop variant the delay always
lies in [interval, interval + 300). -/
theorem claim_C9 :
    ∀ (intervalMs : ℕ) (r : ℚ), 0 ≤ r → r < 1 →
      rearmDelayLoop intervalMs r = intervalMs + jitterOf r ∧
      0 ≤ jitterOf r ∧ jitterOf r < 300 ∧
      (intervalMs : ℚ) ≤ rearmDelayLoop intervalMs r ∧
      rearmDelayLoop intervalMs r < intervalMs + 300 ∧
      (∀ r', rearmDelaySetInterval intervalMs r' = intervalMs) := by
  intro intervalMs r h0 h1
  have hj0 : 0 ≤ jitterOf r := by
    unfold jitterOf
    positivity
  have hj1 : jitterOf r < 300 := by
    unfold jitterOf
    refine Int.floor_lt.mpr ?_
    push_cast
    nlinarith
  refine ⟨rfl, hj0, hj1, ?_, ?_, fun _ => rfl⟩
  · unfold rearmDelayLoop
    have : (0 : ℚ) ≤ (jitterOf r : ℚ) := by exact_mod_cast hj0
    linarith
  · unfold rearmDelayLoop
    have : (jitterOf r : ℚ) < 300 := by exact_mod_cast hj1
    linarith

theorem claim_C9_witness :
    rearmDelayLoop 15000 (1/2) = 15000 + jitterOf (1/2) ∧
    0 ≤ jitterOf (1/2 : ℚ) ∧ jitterOf (1/2 : ℚ) < 300 :=
  ⟨(claim_C9 15000 (1/2) (by norm_num) (by norm_num)).1,
    (claim_C9 15000 (1/2) (by norm_num) (by norm_num)).2.1,
    (claim_C9 15000 (1/2) (by norm_num) (by norm_num)).2.2.1⟩

end Brokex
